import Mathlib

/-!
Verification of the Snippet-Status-Report generator.

This file shallowly embeds the Python sources `generate_ssr.py` and
`third_party/protobuf_json/protobuf_json.py` into Lean and proves the
spec claims about them.

Modelling conventions (stated once here, referenced below):

* Python JSON-like values (`dict` / `list` / scalars) are the inductive
  type `JValue`.  A `dict` is an association list `List (String × JValue)`
  whose lookup takes the first matching key; real Python dicts have unique
  keys, which the association-list model generalises.  Dict equality is
  modelled structurally (entry order matters), a refinement of Python's
  order-insensitive dict equality; no claim below depends on the
  difference.
* Python dict iteration during `_ReplaceJSONFields` is modelled as one
  pass over the dict's original entries, each entry renamed in place.
  (CPython's behaviour when a dict is mutated during iteration is
  unspecified; the idealised one-pass semantics is what the program's own
  tests exercise.)
* `list.remove` during iteration in `_RemoveFlashlessAttributeCorrection`
  is modelled exactly: the loop keeps an index that advances by one each
  step while `remove` deletes the first equal element, so an element that
  slides into a removed element's slot is skipped.
* Floating-point fields are outside the model (the round-trip claim
  explicitly excludes them as inexact).
-/

set_option maxRecDepth 8192

namespace SSR

/-- Untyped nested value: the Python-side JSON representation
(dict, list, unicode/str, int/long, bool, None). -/
inductive JValue where
  | vNull : JValue
  | vBool : Bool → JValue
  | vInt : Int → JValue
  | vStr : String → JValue
  | vArr : List JValue → JValue
  | vObj : List (String × JValue) → JValue

/-- A Python dict of JSON values (association list, first key wins). -/
abbrev JObj := List (String × JValue)

mutual

/-- Structural (boolean) equality of JSON values, matching Python `==` on
values whose dicts are in matching entry order. -/
def JValue.beq : JValue → JValue → Bool
  | .vNull, .vNull => true
  | .vBool a, .vBool b => a == b
  | .vInt a, .vInt b => a == b
  | .vStr a, .vStr b => a == b
  | .vArr a, .vArr b => JValue.beqList a b
  | .vObj a, .vObj b => JValue.beqObj a b
  | _, _ => false

/-- Element-wise equality of JSON lists. -/
def JValue.beqList : List JValue → List JValue → Bool
  | [], [] => true
  | x :: xs, y :: ys => JValue.beq x y && JValue.beqList xs ys
  | _, _ => false

/-- Entry-wise equality of JSON dicts. -/
def JValue.beqObj : List (String × JValue) → List (String × JValue) → Bool
  | [], [] => true
  | (k, x) :: xs, (k2, y) :: ys => k == k2 && JValue.beq x y && JValue.beqObj xs ys
  | _, _ => false

end

/-- Well-founded induction principle for `JValue` threading through the
nested lists. -/
def JValue.indD {P : JValue → Prop} (hNull : P .vNull) (hBool : ∀ b, P (.vBool b))
    (hInt : ∀ i, P (.vInt i)) (hStr : ∀ s, P (.vStr s))
    (hArr : ∀ l, (∀ v ∈ l, P v) → P (.vArr l))
    (hObj : ∀ fs, (∀ e ∈ fs, P e.2) → P (.vObj fs)) :
    ∀ v, P v
  | .vNull => hNull
  | .vBool b => hBool b
  | .vInt i => hInt i
  | .vStr s => hStr s
  | .vArr l => hArr l (fun v hv =>
      have : sizeOf v < 1 + sizeOf l := by
        have := List.sizeOf_lt_of_mem hv
        omega
      JValue.indD hNull hBool hInt hStr hArr hObj v)
  | .vObj fs => hObj fs (fun e he =>
      have : sizeOf e.2 < 1 + sizeOf fs := by
        have h1 := List.sizeOf_lt_of_mem he
        have h2 : sizeOf e.2 < sizeOf e := by
          obtain ⟨k, v⟩ := e
          simp
        omega
      JValue.indD hNull hBool hInt hStr hArr hObj e.2)
  termination_by v => sizeOf v

theorem JValue.beq_iff : ∀ a b : JValue, (JValue.beq a b = true) ↔ a = b := by
  intro a
  induction a using JValue.indD with
  | hNull => intro b; cases b <;> simp [JValue.beq]
  | hBool x => intro b; cases b <;> simp [JValue.beq]
  | hInt x => intro b; cases b <;> simp [JValue.beq]
  | hStr x => intro b; cases b <;> simp [JValue.beq]
  | hArr l ih =>
    intro b
    cases b with
    | vArr m =>
      simp only [JValue.beq, JValue.vArr.injEq]
      induction l generalizing m with
      | nil => cases m <;> simp [JValue.beqList]
      | cons x xs ihl =>
        cases m with
        | nil => simp [JValue.beqList]
        | cons y ys =>
          simp only [JValue.beqList, Bool.and_eq_true, List.cons.injEq]
          rw [ih x (by simp), ihl (fun v hv => ih v (by simp [hv])) ys]
    | vNull => simp [JValue.beq]
    | vBool _ => simp [JValue.beq]
    | vInt _ => simp [JValue.beq]
    | vStr _ => simp [JValue.beq]
    | vObj _ => simp [JValue.beq]
  | hObj fs ih =>
    intro b
    cases b with
    | vObj gs =>
      simp only [JValue.beq, JValue.vObj.injEq]
      induction fs generalizing gs with
      | nil => cases gs <;> simp [JValue.beqObj]
      | cons x xs ihl =>
        cases gs with
        | nil => obtain ⟨k, v⟩ := x; simp [JValue.beqObj]
        | cons y ys =>
          obtain ⟨k, v⟩ := x
          obtain ⟨k2, w⟩ := y
          simp only [JValue.beqObj, Bool.and_eq_true, List.cons.injEq, beq_iff_eq,
            Prod.mk.injEq]
          rw [ih (k, v) (by simp), ihl (fun e he => ih e (by simp; right; exact he)) ys]
    | vNull => simp [JValue.beq]
    | vBool _ => simp [JValue.beq]
    | vInt _ => simp [JValue.beq]
    | vStr _ => simp [JValue.beq]
    | vArr _ => simp [JValue.beq]

instance : DecidableEq JValue := fun a b =>
  decidable_of_iff _ (JValue.beq_iff a b)

/-- Association-list lookup in the translation table: Python
`full_key in translation` / `translation[full_key]`. -/
def jlookup : List (String × String) → String → Option String
  | [], _ => none
  | (k, v) :: rest, s => if s = k then some v else jlookup rest s

/-- Association-list lookup in a JSON dict: Python `d.get(k)`. -/
def jget : JObj → String → Option JValue
  | [], _ => none
  | (k, v) :: rest, s => if s = k then some v else jget rest s

/-- `RICH_MEDIA_CAPABILITY_SSL = 47` (generate_ssr.py). -/
def RICH_MEDIA_CAPABILITY_SSL : Int := 47

/-- `INVALID_SSL_DECLARATION` sentinel string (generate_ssr.py). -/
def INVALID_SSL_DECLARATION : String := "INVALID_SSL_DECLARATION"

/-- `SSL_ATTRIBUTE` sentinel string (generate_ssr.py). -/
def SSL_ATTRIBUTE : String := "SSL_ATTRIBUTE"

/-- `FLASHLESS_ATTRIBUTE` sentinel string (generate_ssr.py). -/
def FLASHLESS_ATTRIBUTE : String := "FLASHLESS_ATTRIBUTE"

/-- The `KEY_TRANSLATION` table of generate_ssr.py, verbatim. -/
def KEY_TRANSLATION : List (String × String) :=
  [("advertiserId", "advertiser_id"),
   ("buyerCreativeId", "buyer_creative_id"),
   ("clickThroughUrl", "click_through_url"),
   ("corrections", "snippet_correction"),
   ("corrections.details", "detail"),
   ("corrections.reason", "type"),
   ("disapprovalReasons", "disapproval_reason"),
   ("disapprovalReasons.details", "detail"),
   ("disapprovalReasons.reason", "reason"),
   ("filteringReasons", "snippet_filtering"),
   ("filteringReasons.date", "date"),
   ("filteringReasons.reasons", "item"),
   ("filteringReasons.reasons.filteringCount", "filtering_count"),
   ("filteringReasons.reasons.filteringStatus", "filtering_status"),
   ("height", "height"),
   ("productCategories", "detected_product_category"),
   ("sensitiveCategories", "detected_sensitive_category"),
   ("status", "status"),
   ("width", "width")]

mutual

/-- `_ReplaceJSONFields(json, translation, prefix)`: depth-first rename.
`_ReplaceKey`'s pop/re-insert is modelled as an in-place rename of the
entry; for each dict entry whose `prefix + key` is in the translation
table the key is renamed and its value recursed into under the extended
dotted prefix; list values recurse element-wise under the unchanged
prefix; scalars are untouched. -/
def ReplaceJSONFields (tr : List (String × String)) : String → JValue → JValue
  | pre, .vArr l => .vArr (replaceList tr pre l)
  | pre, .vObj fields => .vObj (replaceObj tr pre fields)
  | _, v => v

/-- Element-wise traversal of a JSON list by `_ReplaceJSONFields`. -/
def replaceList (tr : List (String × String)) : String → List JValue → List JValue
  | _, [] => []
  | pre, v :: rest => ReplaceJSONFields tr pre v :: replaceList tr pre rest

/-- Entry-wise traversal of a JSON dict by `_ReplaceJSONFields`:
the `for field_name in json` loop body. -/
def replaceObj (tr : List (String × String)) : String → JObj → JObj
  | _, [] => []
  | pre, (k, v) :: rest =>
    (match jlookup tr (pre ++ k) with
     | some newKey => (newKey, ReplaceJSONFields tr (pre ++ k ++ ".") v)
     | none => (k, v)) :: replaceObj tr pre rest

end

/-- Python `list.remove(x)`: delete the first element equal to `x`. -/
def pyRemove : List JValue → JValue → List JValue
  | [], _ => []
  | a :: rest, x => if a = x then rest else a :: pyRemove rest x

theorem pyRemove_length_le (l : List JValue) (x : JValue) :
    (pyRemove l x).length ≤ l.length := by
  induction l with
  | nil => simp [pyRemove]
  | cons a rest ih =>
    simp only [pyRemove]
    split
    · simp
    · simp only [List.length_cons]
      omega

/-- Does this correction entry have `type == FLASHLESS_ATTRIBUTE`? -/
def isFlashless (c : JValue) : Bool :=
  match c with
  | .vObj fields => jget fields "type" = some (.vStr FLASHLESS_ATTRIBUTE)
  | _ => false

/-- The `for snippet_correction in ...: if ...: l.remove(...)` loop of
`_RemoveFlashlessAttributeCorrection`, with Python's exact iterator
semantics: the list iterator holds an index advanced once per step while
the loop body may shrink the very list being iterated (so the element
that slides into a removed element's slot is skipped). -/
def flashLoop (l : List JValue) (i : Nat) : List JValue :=
  if h : i < l.length then
    if isFlashless (l.get ⟨i, h⟩)
    then flashLoop (pyRemove l (l.get ⟨i, h⟩)) (i + 1)
    else flashLoop l (i + 1)
  else l
  termination_by l.length - i
  decreasing_by
    · have := pyRemove_length_le l (l.get ⟨i, h⟩)
      omega
    · omega

/-- `_RemoveFlashlessAttributeCorrection(item)`: iterate over
`item.get('snippet_correction', [])` removing FLASHLESS entries in place.
A present non-list value (a dynamic type error in Python) is left
unchanged; no claim exercises that corner. -/
def RemoveFlashlessAttributeCorrection (item : JObj) : JObj :=
  match jget item "snippet_correction" with
  | some (.vArr l) => item.map fun e =>
      if e.1 = "snippet_correction" then (e.1, .vArr (flashLoop l 0)) else e
  | _ => item

/-- `item.get(k, [])` followed by iteration: a present list gives its
elements, a missing key the empty list.  (A present non-list would be a
Python dynamic type error; modelled as empty, no claim exercises it.) -/
def getListD (item : JObj) (k : String) : List JValue :=
  match jget item k with
  | some (.vArr l) => l
  | _ => []

/-- `entry.get(k, None)` on a correction / disapproval entry. -/
def entryGet (e : JValue) (k : String) : Option JValue :=
  match e with
  | .vObj fields => jget fields k
  | _ => none

/-- `_IsSSLCapable(item)`: SSL capability of a snippet status item,
mirroring the source's early-return structure. -/
def IsSSLCapable (item : JObj) : Bool :=
  if ¬ (getListD item "attribute").contains (.vInt RICH_MEDIA_CAPABILITY_SSL) then
    false
  else if (getListD item "disapproval_reason").any
      (fun d => entryGet d "reason" = some (.vStr INVALID_SSL_DECLARATION)) then
    false
  else if (getListD item "snippet_correction").any
      (fun c => entryGet c "type" = some (.vStr SSL_ATTRIBUTE)) then
    false
  else true

/-- The observable contents of `translated_item` (the `item.copy()` taken
in `GenerateSnippetStatusReportPBObject` after the rename pass) at the
moment it is consumed, i.e. after `_RemoveFlashlessAttributeCorrection(item)`
has run on the original.  `dict.copy()` is shallow: the copy's
`'snippet_correction'` entry aliases the very list object that the removal
mutates in place, so the removal is visible through the copy, and every
other entry aliases an object the removal never touches. -/
def translatedItemAfterRemoval (item : JObj) : JObj :=
  RemoveFlashlessAttributeCorrection item

/-! Helper lemmas about the rename pass. -/

/-- Is `a` a string prefix of `c`?  (Stated over the character lists so
that it evaluates by kernel reduction.) -/
def strHasPrefix (a c : String) : Bool := a.data.isPrefixOf c.data

theorem append_ne_key (a k c : String) (h : strHasPrefix a c = false) :
    a ++ k ≠ c := by
  intro heq
  have hd : a.data ++ k.data = c.data := by
    rw [String.ext_iff, String.data_append] at heq
    exact heq
  have hpre : a.data.isPrefixOf c.data = true := by
    rw [List.isPrefixOf_iff_prefix]
    exact ⟨k.data, hd⟩
  rw [strHasPrefix, hpre] at h
  exact absurd h (by simp)

theorem jlookup_mem (tr : List (String × String)) (s nk : String)
    (h : jlookup tr s = some nk) : (s, nk) ∈ tr := by
  induction tr with
  | nil => simp [jlookup] at h
  | cons kv rest ih =>
    obtain ⟨k, v⟩ := kv
    simp only [jlookup] at h
    split at h
    · rename_i heq
      cases h
      simp [heq]
    · exact List.mem_cons_of_mem _ (ih h)

/-- If no key of the table extends the dotted prefix `p`, every lookup of
`p ++ s` misses. -/
theorem jlookup_append_none (tr : List (String × String)) (p : String)
    (h : tr.all (fun kv => !(strHasPrefix p kv.1)) = true) (s : String) :
    jlookup tr (p ++ s) = none := by
  induction tr with
  | nil => rfl
  | cons kv rest ih =>
    obtain ⟨k, v⟩ := kv
    simp only [List.all_cons, Bool.and_eq_true, Bool.not_eq_eq_eq_not, Bool.not_true] at h
    simp only [jlookup]
    rw [if_neg (append_ne_key p s k h.1)]
    exact ih h.2

/-- A dead dotted prefix makes the rename pass the identity: at such a
prefix no key can be renamed, and the pass never recurses through an
un-renamed key. -/
theorem replace_dead (tr : List (String × String)) (p : String)
    (h : ∀ s, jlookup tr (p ++ s) = none) :
    ∀ v, ReplaceJSONFields tr p v = v := by
  intro v
  induction v using JValue.indD with
  | hNull => rfl
  | hBool b => rfl
  | hInt i => rfl
  | hStr s => rfl
  | hArr l ih =>
    simp only [ReplaceJSONFields, JValue.vArr.injEq]
    induction l with
    | nil => rfl
    | cons x xs ihl =>
      simp only [replaceList, List.cons.injEq]
      exact ⟨ih x (by simp), ihl (fun v hv => ih v (by simp [hv]))⟩
  | hObj fs ih =>
    simp only [ReplaceJSONFields, JValue.vObj.injEq]
    induction fs with
    | nil => rfl
    | cons e rest ihl =>
      obtain ⟨k, w⟩ := e
      simp only [replaceObj, h k, List.cons.injEq, true_and, and_true, eq_self_iff_true]
      exact ihl (fun x hx => ih x (by simp; right; exact hx))

theorem str_empty_append (s : String) : "" ++ s = s := by
  apply String.ext
  rw [String.data_append]
  rfl

theorem replaceObj_append (tr : List (String × String)) (p : String)
    (xs ys : JObj) :
    replaceObj tr p (xs ++ ys) = replaceObj tr p xs ++ replaceObj tr p ys := by
  induction xs with
  | nil => rfl
  | cons e rest ih =>
    obtain ⟨k, w⟩ := e
    simp only [List.cons_append, replaceObj, List.append_eq, ih]

set_option linter.unusedTactic false in
theorem replaceObj_single_idem (k : String) (w : JValue) :
    replaceObj KEY_TRANSLATION "" (replaceObj KEY_TRANSLATION "" [(k, w)])
      = replaceObj KEY_TRANSLATION "" [(k, w)] := by
  rcases h : jlookup KEY_TRANSLATION ("" ++ k) with _ | nk
  · simp only [replaceObj, h]
  · have hmem := jlookup_mem _ _ _ h
    have hD1 : ∀ s, jlookup KEY_TRANSLATION ("height." ++ s) = none :=
      jlookup_append_none _ _ (by decide)
    have hD2 : ∀ s, jlookup KEY_TRANSLATION ("status." ++ s) = none :=
      jlookup_append_none _ _ (by decide)
    have hD3 : ∀ s, jlookup KEY_TRANSLATION ("width." ++ s) = none :=
      jlookup_append_none _ _ (by decide)
    simp only [KEY_TRANSLATION, List.mem_cons, Prod.mk.injEq, List.not_mem_nil,
      or_false, str_empty_append] at hmem
    repeat' rcases hmem with ⟨rfl, rfl⟩ | hmem
    all_goals try obtain ⟨rfl, rfl⟩ := hmem
    all_goals
      first
        | (simp [replaceObj, jlookup, KEY_TRANSLATION]; done)
        | (simp only [replaceObj, str_empty_append,
             show jlookup KEY_TRANSLATION "height" = some "height" from by decide,
             show ("height" ++ "." : String) = "height." from rfl,
             replace_dead KEY_TRANSLATION "height." hD1]; done)
        | (simp only [replaceObj, str_empty_append,
             show jlookup KEY_TRANSLATION "status" = some "status" from by decide,
             show ("status" ++ "." : String) = "status." from rfl,
             replace_dead KEY_TRANSLATION "status." hD2]; done)
        | (simp only [replaceObj, str_empty_append,
             show jlookup KEY_TRANSLATION "width" = some "width" from by decide,
             show ("width" ++ "." : String) = "width." from rfl,
             replace_dead KEY_TRANSLATION "width." hD3]; done)

theorem replaceObj_idem (fs : JObj) :
    replaceObj KEY_TRANSLATION "" (replaceObj KEY_TRANSLATION "" fs)
      = replaceObj KEY_TRANSLATION "" fs := by
  induction fs with
  | nil => rfl
  | cons e rest ih =>
    obtain ⟨k, w⟩ := e
    have hsplit : (k, w) :: rest = [(k, w)] ++ rest := rfl
    rw [hsplit, replaceObj_append, replaceObj_append, replaceObj_single_idem, ih]

theorem replaceList_idem (l : List JValue)
    (ih : ∀ v ∈ l, ReplaceJSONFields KEY_TRANSLATION ""
        (ReplaceJSONFields KEY_TRANSLATION "" v) = ReplaceJSONFields KEY_TRANSLATION "" v) :
    replaceList KEY_TRANSLATION "" (replaceList KEY_TRANSLATION "" l)
      = replaceList KEY_TRANSLATION "" l := by
  induction l with
  | nil => rfl
  | cons x xs ihl =>
    simp only [replaceList, List.cons.injEq]
    exact ⟨ih x (by simp), ihl fun v hv => ih v (by simp [hv])⟩

theorem jget_map_preserve (s : String) (new : JValue) (item : JObj) (k : String)
    (hk : k ≠ s) :
    jget (item.map fun e => if e.1 = s then (e.1, new) else e) k = jget item k := by
  induction item with
  | nil => rfl
  | cons e rest ih =>
    obtain ⟨k', v'⟩ := e
    simp only [List.map]
    have hhead : (if (k', v').1 = s then ((k', v').1, new) else (k', v'))
        = (k', if k' = s then new else v') := by
      by_cases hes : k' = s <;> simp [hes]
    rw [hhead]
    simp only [jget]
    by_cases hkk : k = k'
    · subst hkk
      rw [if_pos rfl, if_pos rfl, if_neg hk]
    · rw [if_neg hkk, if_neg hkk]
      exact ih

/-! The claim theorems for `generate_ssr.py`. -/

/-- C1 (counterexample): the claim asserts that the shallow copy taken
before `_RemoveFlashlessAttributeCorrection` still contains every
correction entry (including FLASHLESS_ATTRIBUTE ones) after the removal
has run on the original.  False: `dict.copy()` shares the
`'snippet_correction'` list object with the original, so the in-place
removal is visible through the copy.  At an item whose correction list is
a single FLASHLESS entry, the copy's correction list afterwards is empty,
not the original one-element list. -/
theorem c1_shallow_copy_counterexample :
    jget (translatedItemAfterRemoval
        [("snippet_correction", .vArr [.vObj [("type", .vStr FLASHLESS_ATTRIBUTE)]])])
      "snippet_correction"
    ≠ some (.vArr [.vObj [("type", .vStr FLASHLESS_ATTRIBUTE)]]) := by
  simp [translatedItemAfterRemoval, RemoveFlashlessAttributeCorrection, jget, flashLoop,
    isFlashless, pyRemove, FLASHLESS_ATTRIBUTE]

/-- C1 (amended): the shallow copy does not preserve the pre-correction
correction list.  After `_RemoveFlashlessAttributeCorrection(item)` runs,
the copy's observable contents equal the post-removal original — its
`'snippet_correction'` entry reflects the in-place removal (the list
object is shared), while every entry under any other key is unchanged. -/
theorem c1_shallow_copy_amended (item : JObj) :
    translatedItemAfterRemoval item = RemoveFlashlessAttributeCorrection item ∧
    (∀ k, k ≠ "snippet_correction" →
      jget (translatedItemAfterRemoval item) k = jget item k) := by
  refine ⟨rfl, fun k hk => ?_⟩
  show jget (RemoveFlashlessAttributeCorrection item) k = jget item k
  rw [RemoveFlashlessAttributeCorrection]
  cases hsc : jget item "snippet_correction" with
  | none => rfl
  | some v =>
    cases v with
    | vArr l => exact jget_map_preserve _ _ item k hk
    | vNull => rfl
    | vBool _ => rfl
    | vInt _ => rfl
    | vStr _ => rfl
    | vObj _ => rfl

/-- Witness for C1 (amended): at a concrete item, the copy's
`'attribute'` entry is untouched by the removal. -/
theorem c1_shallow_copy_amended_witness :
    jget (translatedItemAfterRemoval [("attribute", .vArr [.vInt 47])]) "attribute"
      = jget [("attribute", .vArr [.vInt 47])] "attribute" :=
  (c1_shallow_copy_amended [("attribute", .vArr [.vInt 47])]).2 "attribute" (by decide)

/-- C2 (code bug, failing input): on a correction list holding two
adjacent FLASHLESS_ATTRIBUTE entries, `_RemoveFlashlessAttributeCorrection`
leaves one of them behind: removing during iteration slides the second
sentinel into the removed slot, and the iterator skips it.  The docstring
("this correction reason ... needs to be removed") and the downstream
decode require all of them gone. -/
theorem c2_flashless_removal_failing_eval :
    RemoveFlashlessAttributeCorrection
      [("snippet_correction", .vArr
        [.vObj [("type", .vStr FLASHLESS_ATTRIBUTE)],
         .vObj [("type", .vStr FLASHLESS_ATTRIBUTE)]])]
    = [("snippet_correction", .vArr
        [.vObj [("type", .vStr FLASHLESS_ATTRIBUTE)]])] := by
  simp [RemoveFlashlessAttributeCorrection, jget, flashLoop, isFlashless, pyRemove,
    FLASHLESS_ATTRIBUTE]

/-- C3: `_IsSSLCapable(item)` returns True iff the code 47
(RICH_MEDIA_CAPABILITY_SSL) occurs in the item's `'attribute'` sequence,
no `'disapproval_reason'` entry has `'reason' == INVALID_SSL_DECLARATION`,
and no `'snippet_correction'` entry has `'type' == SSL_ATTRIBUTE`; missing
keys count as empty sequences (`getListD`). -/
theorem c3_is_ssl_capable_iff (item : JObj) :
    IsSSLCapable item = true ↔
      (JValue.vInt RICH_MEDIA_CAPABILITY_SSL) ∈ getListD item "attribute" ∧
      (∀ d ∈ getListD item "disapproval_reason",
        entryGet d "reason" ≠ some (.vStr INVALID_SSL_DECLARATION)) ∧
      (∀ c ∈ getListD item "snippet_correction",
        entryGet c "type" ≠ some (.vStr SSL_ATTRIBUTE)) := by
  simp only [IsSSLCapable, List.any_eq_true, decide_eq_true_eq, Bool.not_eq_true,
    List.contains_eq_any_beq]
  by_cases h1 : (JValue.vInt RICH_MEDIA_CAPABILITY_SSL) ∈ getListD item "attribute" <;>
    simp [h1]

/-- C4: applying the rename pass (empty prefix) to
`{"corrections": [{"reason": "VENDOR_IDS", "details": d}]}` yields
`{"snippet_correction": [{"type": "VENDOR_IDS", "detail": d}]}` for any
details payload `d`: the child keys resolve under the dotted prefix of the
original parent key after the parent itself has been renamed, and
list-valued nodes recurse element-wise without extending the prefix. -/
theorem c4_rename_path_composition (d : JValue) :
    ReplaceJSONFields KEY_TRANSLATION ""
      (.vObj [("corrections",
        .vArr [.vObj [("reason", .vStr "VENDOR_IDS"), ("details", d)]])])
    = .vObj [("snippet_correction",
        .vArr [.vObj [("type", .vStr "VENDOR_IDS"), ("detail", d)]])] := by
  have hD : ∀ s, jlookup KEY_TRANSLATION ("corrections.details." ++ s) = none :=
    jlookup_append_none _ _ (by decide)
  simp only [ReplaceJSONFields, replaceObj, replaceList, str_empty_append,
    show jlookup KEY_TRANSLATION "corrections" = some "snippet_correction" from by decide,
    show ("corrections" ++ "." : String) = "corrections." from rfl,
    show jlookup KEY_TRANSLATION ("corrections." ++ "reason") = some "type" from by decide,
    show jlookup KEY_TRANSLATION ("corrections." ++ "details") = some "detail" from by decide,
    show ("corrections." ++ "details" ++ "." : String) = "corrections.details." from rfl,
    replace_dead KEY_TRANSLATION "corrections.details." hD]

/-- C5: the rename pass with the `KEY_TRANSLATION` table and empty prefix
is idempotent — a second application is the identity on already-renamed
data.  (The only outputs of the table that are again table keys are the
self-renames `height`, `status`, `width`, whose recursion prefixes match
no table key.) -/
theorem c5_rename_idempotent (v : JValue) :
    ReplaceJSONFields KEY_TRANSLATION "" (ReplaceJSONFields KEY_TRANSLATION "" v)
      = ReplaceJSONFields KEY_TRANSLATION "" v := by
  induction v using JValue.indD with
  | hNull => rfl
  | hBool b => rfl
  | hInt i => rfl
  | hStr s => rfl
  | hArr l ih =>
    simp only [ReplaceJSONFields, JValue.vArr.injEq]
    exact replaceList_idem l ih
  | hObj fs ih =>
    simp only [ReplaceJSONFields, JValue.vObj.injEq]
    exact replaceObj_idem fs

/-!
The `protobuf_json.py` mapping engine.

The schema/message system (`google.protobuf`) is an external collaborator;
its interface is embedded as follows:

* A field descriptor is a triple (name, label, type); a message descriptor
  is its ordered field list.  The scalar type tags whose coercions are
  `int`/`long` are represented by `tInt32`/`tInt64`/`tUint32`/`tUint64`
  (the remaining integer tags `fixed*`, `sfixed*`, `sint*` coerce
  identically); `float`/`double` are outside the model (the round-trip
  claim excludes them as inexact), and the message-set bridge
  (`proto2.bridge.MessageSet`, resolved via runtime module lookup) is not
  modelled — descriptors here are ordinary message types.
* A message is its ordered field list, each field holding the list of its
  present values: `[]` is an unset singular field or an empty repeated
  field, `[v]` a set singular field, and a repeated field holds its
  element list.  Mutating a nested message through `getattr` marks the
  parent field as set; the model stores the submessage whenever it is
  written to.
* `FindInitializationErrors` returns the dotted paths of unset required
  fields, recursing into set submessages and repeated message elements.
* Python `TypeError`/`ValueError` raised by a coercion (e.g. `int('x')`)
  abort the call; the `ParseError` branch of `json2pb` is unreachable for
  the modelled type tags (each one is message-handled or has a coercion
  table entry).
-/

/-- Errors of the mapping engine: `RequiredFieldMissing` carries the
dotted paths of the unset required fields; `convError` collapses the
uncaught Python `ValueError`/`TypeError` of a failed value conversion. -/
inductive PbErr where
  | requiredMissing : List String → PbErr
  | convError : PbErr
  deriving DecidableEq, Repr

/-- Field cardinality: `LABEL_REQUIRED` / `LABEL_OPTIONAL` / `LABEL_REPEATED`. -/
inductive Label where
  | req : Label
  | opt : Label
  | rep : Label
  deriving DecidableEq, Repr

/-- Field type tag together with its type-specific descriptor data: an
enum carries its value table (symbolic name, number), a message its
nested field descriptors (name, label, type). -/
inductive FieldType where
  | tInt32 : FieldType
  | tInt64 : FieldType
  | tUint32 : FieldType
  | tUint64 : FieldType
  | tBool : FieldType
  | tString : FieldType
  | tBytes : FieldType
  | tEnum : List (String × Int) → FieldType
  | tMsg : List (String × Label × FieldType) → FieldType

/-- One field descriptor: name, label, type. -/
abbrev FieldD := String × Label × FieldType

/-- A message descriptor: its ordered list of field descriptors. -/
abbrev Descr := List FieldD

/-- A protobuf field value. -/
inductive PValue where
  | pInt : Int → PValue
  | pBool : Bool → PValue
  | pStr : String → PValue
  | pBytes : List Nat → PValue
  | pMsg : List (String × List PValue) → PValue

/-- A message instance: per field, the list of its present values
(`[]` = unset / empty). -/
abbrev Msg := List (String × List PValue)

/-- `getattr(pb, name)` on the model: the field's value list. -/
def mlookup : Msg → String → List PValue
  | [], _ => []
  | (k, vs) :: rest, n => if n = k then vs else mlookup rest n

/-- `setattr` / in-place field update on the model. -/
def msetF : Msg → String → List PValue → Msg
  | [], _, _ => []
  | (k, vs) :: rest, n, new =>
    if n = k then (k, new) :: rest else (k, vs) :: msetF rest n new

/-- A freshly constructed message: every field unset. -/
def freshMsg (desc : Descr) : Msg := desc.map fun f => (f.1, [])

/-- `values_by_name.get(name)` on an enum value table (first match). -/
def lookupName : List (String × Int) → String → Option Int
  | [], _ => none
  | (nm, n) :: rest, s => if s = nm then some n else lookupName rest s

/-- `values_by_number.get(number)` on an enum value table (first match). -/
def lookupNumber : List (String × Int) → Int → Option String
  | [], _ => none
  | (nm, n) :: rest, i => if i = n then some nm else lookupNumber rest i

/-- Model of Python `int(x)` on a JSON value: identity on ints, 0/1 on
bools, best-effort parse on strings (`none` models the `ValueError`), and
`none` (a `TypeError`) on everything else. -/
def pyInt : JValue → Option Int
  | .vInt i => some i
  | .vBool b => some (if b then 1 else 0)
  | .vStr s => s.toInt?
  | _ => none

/-- Python `bool(x)`: total truthiness. -/
def pyBool : JValue → Bool
  | .vNull => false
  | .vBool b => b
  | .vInt i => i != 0
  | .vStr s => !s.isEmpty
  | .vArr l => !l.isEmpty
  | .vObj fs => !fs.isEmpty

/-- Python `unicode(x)`: identity on strings, standard rendering of
scalars.  On lists/dicts Python would stringify the repr; that corner is
modelled as a conversion failure (no claim depends on it). -/
def pyUnicode : JValue → Option String
  | .vStr s => some s
  | .vInt i => some (toString i)
  | .vBool true => some "True"
  | .vBool false => some "False"
  | .vNull => some "None"
  | _ => none

/-- `_EnumNameToNumber(field)`'s inner `_Ftype(js_value)`: look the value
up in `values_by_name` (a string-keyed dict, so only string inputs can
hit) and fall back to `int(js_value)` on a miss.  Total on ints and
bools; `none` models the uncaught `ValueError`/`TypeError` of the
fallback parse. -/
def EnumNameToNumber (values : List (String × Int)) : JValue → Option Int
  | .vStr s =>
    match lookupName values s with
    | some n => some n
    | none => s.toInt?
  | .vInt i => some i
  | .vBool b => some (if b then 1 else 0)
  | _ => none

/-- `_EnumNumberToName(field)`'s inner `_Ftype(js_value)`: look the
number up in `values_by_number` and return the raw number unchanged on a
miss.  Never fails. -/
def EnumNumberToName (values : List (String × Int)) (i : Int) : JValue :=
  match lookupNumber values i with
  | some nm => .vStr nm
  | none => .vInt i

/-- C8: enum codec fallbacks.  Decode direction: a string input resolves
through the enum value table when the symbolic name is present, and
otherwise falls back to the integer parse of the same string (which alone
can fail).  Encode direction: a number resolves to its symbolic name when
present in the table and otherwise passes through unchanged — the
function is total, so it never raises. -/
theorem c8_enum_codec_fallbacks (values : List (String × Int)) (s : String) (i : Int) :
    EnumNameToNumber values (.vStr s)
        = (lookupName values s).elim s.toInt? some ∧
    EnumNumberToName values i
        = (lookupNumber values i).elim (JValue.vInt i) JValue.vStr := by
  constructor
  · cases h : lookupName values s <;> simp [EnumNameToNumber, h]
  · cases h : lookupNumber values i <;> simp [EnumNumberToName, h]

/-!
Python 2 byte-string escape codec (`str.encode('string_escape')` and
`str.decode('string_escape')`), used by the `TYPE_BYTES` entries of the
coercion tables.  A byte string is a `List Nat` of byte values. -/

theorem char_toNat_ofNat (n : Nat) (h2 : n < 55296) : (Char.ofNat n).toNat = n := by
  unfold Char.ofNat Char.toNat
  split
  · simp [Char.ofNatAux, UInt32.toNat, UInt32.ofNatCore, BitVec.toNat_ofNatLt]
  · omega

/-- Lower-case hex digit character for a value below 16. -/
def hexDigitChar (d : Nat) : Char :=
  if d < 10 then Char.ofNat (48 + d) else Char.ofNat (87 + d)

/-- Numeric value of a hex digit character. -/
def hexVal (c : Char) : Option Nat :=
  if 48 ≤ c.toNat ∧ c.toNat ≤ 57 then some (c.toNat - 48)
  else if 97 ≤ c.toNat ∧ c.toNat ≤ 102 then some (c.toNat - 87)
  else if 65 ≤ c.toNat ∧ c.toNat ≤ 70 then some (c.toNat - 55)
  else none

/-- Octal digit character test. -/
def isOctal (c : Char) : Bool := 48 ≤ c.toNat && c.toNat ≤ 55

/-- `string_escape` encoding of one byte: backslash, tab, newline,
carriage return and the single quote get two-character escapes, other
bytes outside 32..126 get `\xHH`, printable bytes pass through. -/
def escapeByte (n : Nat) : List Char :=
  if n = 92 then ['\\', '\\']
  else if n = 9 then ['\\', 't']
  else if n = 10 then ['\\', 'n']
  else if n = 13 then ['\\', 'r']
  else if n = 39 then ['\\', '\'']
  else if n < 32 ∨ 127 ≤ n then
    ['\\', 'x', hexDigitChar (n / 16 % 16), hexDigitChar (n % 16)]
  else [Char.ofNat n]

/-- `string_escape` encoding of a byte string. -/
def escapeBytes : List Nat → List Char
  | [] => []
  | n :: rest => escapeByte n ++ escapeBytes rest

/-- Consume up to three octal digits (the first already read as `e`),
returning the byte value (wrapping like CPython) and the remaining
characters. -/
def takeOctal (e : Char) (t : List Char) : Nat × List Char :=
  match t with
  | d2 :: t2 =>
    if isOctal d2 then
      match t2 with
      | d3 :: t3 =>
        if isOctal d3 then
          ((((e.toNat - 48) * 8 + (d2.toNat - 48)) * 8 + (d3.toNat - 48)) % 256, t3)
        else ((e.toNat - 48) * 8 + (d2.toNat - 48), t2)
      | [] => ((e.toNat - 48) * 8 + (d2.toNat - 48), [])
    else (e.toNat - 48, t)
  | [] => (e.toNat - 48, [])

theorem takeOctal_length_le (e : Char) (t : List Char) :
    (takeOctal e t).2.length ≤ t.length := by
  rcases t with _ | ⟨d2, t2⟩
  · simp [takeOctal]
  · rcases t2 with _ | ⟨d3, t3⟩
    · simp only [takeOctal]
      split <;> (simp; try omega)
    · simp only [takeOctal]
      split
      · split <;> (simp; try omega)
      · simp

/-- `string_escape` decoding: standard backslash escapes, up to three
octal digits, `\xHH` with exactly two hex digits (else `ValueError`,
modelled as `none`), a trailing backslash is a `ValueError`, and an
unrecognised escape keeps both characters. -/
def unescapeChars : List Char → Option (List Nat)
  | [] => some []
  | c :: rest =>
    if c = '\\' then
      match rest with
      | [] => none
      | e :: t =>
        if e = '\\' then (unescapeChars t).map (92 :: ·)
        else if e = '\'' then (unescapeChars t).map (39 :: ·)
        else if e = '"' then (unescapeChars t).map (34 :: ·)
        else if e = 'b' then (unescapeChars t).map (8 :: ·)
        else if e = 'f' then (unescapeChars t).map (12 :: ·)
        else if e = 't' then (unescapeChars t).map (9 :: ·)
        else if e = 'n' then (unescapeChars t).map (10 :: ·)
        else if e = 'r' then (unescapeChars t).map (13 :: ·)
        else if e = 'v' then (unescapeChars t).map (11 :: ·)
        else if e = 'a' then (unescapeChars t).map (7 :: ·)
        else if isOctal e then
          (unescapeChars (takeOctal e t).2).map ((takeOctal e t).1 :: ·)
        else if e = 'x' then
          match t with
          | h1 :: h2 :: t2 =>
            match hexVal h1, hexVal h2 with
            | some d1, some d2 => (unescapeChars t2).map ((d1 * 16 + d2) :: ·)
            | _, _ => none
          | _ => none
        else (unescapeChars t).map (92 :: e.toNat :: ·)
    else (unescapeChars rest).map (c.toNat :: ·)
  termination_by l => l.length
  decreasing_by
    all_goals simp_wf
    all_goals try omega
    · have := takeOctal_length_le e t
      omega

theorem hexVal_hexDigitChar (d : Nat) (h : d < 16) :
    hexVal (hexDigitChar d) = some d := by
  interval_cases d <;> decide

theorem unescape_escape (bs : List Nat) (h : ∀ n ∈ bs, n < 256) :
    unescapeChars (escapeBytes bs) = some bs := by
  induction bs with
  | nil => simp [escapeBytes, unescapeChars.eq_def]
  | cons n rest ih =>
    have hn : n < 256 := h n (by simp)
    have ihr := ih fun m hm => h m (by simp [hm])
    simp only [escapeBytes, escapeByte]
    by_cases h92 : n = 92
    · subst h92
      rw [if_pos rfl, List.cons_append, List.cons_append, List.nil_append,
        unescapeChars.eq_def]
      simp [ihr]
    · rw [if_neg h92]
      by_cases h9 : n = 9
      · subst h9
        rw [if_pos rfl, List.cons_append, List.cons_append, List.nil_append,
          unescapeChars.eq_def]
        simp [ihr]
      · rw [if_neg h9]
        by_cases h10 : n = 10
        · subst h10
          rw [if_pos rfl, List.cons_append, List.cons_append, List.nil_append,
            unescapeChars.eq_def]
          simp [ihr]
        · rw [if_neg h10]
          by_cases h13 : n = 13
          · subst h13
            rw [if_pos rfl, List.cons_append, List.cons_append, List.nil_append,
              unescapeChars.eq_def]
            simp [ihr]
          · rw [if_neg h13]
            by_cases h39 : n = 39
            · subst h39
              rw [if_pos rfl, List.cons_append, List.cons_append, List.nil_append,
                unescapeChars.eq_def]
              simp [ihr]
            · rw [if_neg h39]
              by_cases hrange : n < 32 ∨ 127 ≤ n
              · rw [if_pos hrange]
                have hd1 : n / 16 % 16 < 16 := Nat.mod_lt _ (by omega)
                have hd2 : n % 16 < 16 := Nat.mod_lt _ (by omega)
                simp only [List.cons_append, List.nil_append]
                rw [unescapeChars.eq_def]
                simp [hexVal_hexDigitChar _ hd1, hexVal_hexDigitChar _ hd2, ihr,
                  show isOctal 'x' = false from by decide]
                omega
              · rw [if_neg hrange]
                push_neg at hrange
                obtain ⟨hlo, hhi⟩ := hrange
                have htn : (Char.ofNat n).toNat = n := char_toNat_ofNat n (by omega)
                have hne : Char.ofNat n ≠ '\\' := by
                  intro hc
                  apply h92
                  rw [← htn, hc]
                  decide
                simp only [List.cons_append, List.nil_append]
                rw [unescapeChars.eq_def]
                simp [if_neg hne, ihr, htn]

/-- Dispatch of the `_js2ftype` coercion table, plus the
`use_enum_str_values` enum branch of `json2pb`, for non-message types.
`none` is the uncaught conversion error. -/
def scalarDecode (ue : Bool) (ty : FieldType) (jsv : JValue) : Option PValue :=
  match ty with
  | .tInt32 => (pyInt jsv).map .pInt
  | .tInt64 => (pyInt jsv).map .pInt
  | .tUint32 => (pyInt jsv).map .pInt
  | .tUint64 => (pyInt jsv).map .pInt
  | .tBool => some (.pBool (pyBool jsv))
  | .tString => (pyUnicode jsv).map .pStr
  | .tBytes =>
    match jsv with
    | .vStr s => (unescapeChars s.data).map .pBytes
    | _ => none
  | .tEnum values =>
    if ue then (EnumNameToNumber values jsv).map .pInt
    else (pyInt jsv).map .pInt
  | .tMsg _ => none

mutual

/-- `FindInitializationErrors`: the dotted paths of unset required
fields, recursing into set submessages and repeated message elements. -/
def findInit : String → Descr → Msg → List String
  | _, [], _ => []
  | pre, (name, lab, ty) :: rest, m =>
    (if lab == Label.req && (mlookup m name).isEmpty then [pre ++ name] else [])
      ++ (match ty, lab with
          | .tMsg sub, .rep => findInitRep (pre ++ name) sub 0 (mlookup m name)
          | .tMsg sub, _ =>
            match mlookup m name with
            | [.pMsg fm] => findInit (pre ++ name ++ ".") sub fm
            | _ => []
          | _, _ => [])
      ++ findInit pre rest m

/-- Initialization errors of the elements of a repeated message field,
with the element index in the path. -/
def findInitRep (base : String) (sub : Descr) : Nat → List PValue → List String
  | _, [] => []
  | i, .pMsg fm :: rest =>
    findInit (base ++ "[" ++ toString i ++ "].") sub fm
      ++ findInitRep base sub (i + 1) rest
  | i, _ :: rest => findInitRep base sub (i + 1) rest

end

mutual

/-- The `for field in pb.DESCRIPTOR.fields` loop of `json2pb`: each field
whose name is a key of the input dict is written into the message; the
traversal stops at the first conversion error, returning the message
state reached so far (writes are in place and are not rolled back). -/
def procFields (ue : Bool) : Descr → Msg → JObj → Msg × Option PbErr
  | [], m, _ => (m, none)
  | (name, lab, ty) :: rest, m, js =>
    match jget js name with
    | none => procFields ue rest m js
    | some jsv =>
      match lab, ty with
      | .rep, tyr =>
        match jsv with
        | .vArr elems =>
          match repLoop ue tyr (mlookup m name) elems with
          | (vs, some e) => (msetF m name vs, some e)
          | (vs, none) => procFields ue rest (msetF m name vs) js
        | _ => (m, some .convError)
      | _, .tMsg sub =>
        match msgDecode ue sub
            (match mlookup m name with
             | [.pMsg fm] => fm
             | _ => freshMsg sub) jsv with
        | (fm, some e) => (msetF m name [.pMsg fm], some e)
        | (fm, none) => procFields ue rest (msetF m name [.pMsg fm]) js
      | _, _ =>
        match scalarDecode ue ty jsv with
        | some pv => procFields ue rest (msetF m name [pv]) js
        | none => (m, some .convError)
  termination_by desc _ js => (sizeOf desc, sizeOf js)

/-- The repeated-field loop of `json2pb`: appends the per-element
conversion of every element in order; a message element is
`pb_value.add()`-ed first and recursively decoded in place, so on an
inner error it stays appended partially filled. -/
def repLoop (ue : Bool) (ty : FieldType) : List PValue → List JValue → List PValue × Option PbErr
  | acc, [] => (acc, none)
  | acc, v :: vs =>
    match ty with
    | .tMsg sub =>
      match msgDecode ue sub (freshMsg sub) v with
      | (fm, some e) => (acc ++ [.pMsg fm], some e)
      | (fm, none) => repLoop ue (.tMsg sub) (acc ++ [.pMsg fm]) vs
    | other =>
      match scalarDecode ue other v with
      | some pv => repLoop ue other (acc ++ [pv]) vs
      | none => (acc, some .convError)
  termination_by _ elems => (sizeOf ty, sizeOf elems)

/-- A nested `json2pb(pb_value, js_value, ...)` call: the value must be a
dict, its fields are processed, and the nested call runs its own
required-field check before returning. -/
def msgDecode (ue : Bool) (sub : Descr) (base : Msg) : JValue → Msg × Option PbErr
  | .vObj es =>
    match procFields ue sub base es with
    | (m2, some e) => (m2, some e)
    | (m2, none) =>
      match findInit "" sub m2 with
      | [] => (m2, none)
      | errs => (m2, some (.requiredMissing errs))
  | _ => (base, some .convError)
  termination_by jsv => (sizeOf sub, sizeOf jsv)

end

/-- `json2pb(pb, js, use_enum_str_values)`: process all fields present in
the dict, then query initialization completeness and fail with
Required-Field-Missing naming the unset required fields.  The first
component is the state of the passed-in (mutated-in-place) message. -/
def json2pb (ue : Bool) (desc : Descr) (m : Msg) (js : JObj) : Msg × Option PbErr :=
  match procFields ue desc m js with
  | (m2, some e) => (m2, some e)
  | (m2, none) =>
    match findInit "" desc m2 with
    | [] => (m2, none)
    | errs => (m2, some (.requiredMissing errs))

/-- `_Pb2JsonConverter` for non-message types: the `_ftype2js` coercion
table applied to the stored (typed) field value, plus the
`use_enum_str_values` enum branch.  `none` marks an ill-typed stored
value, which cannot occur in a schema-conforming message. -/
def scalarEncode (ue : Bool) (ty : FieldType) (pv : PValue) : Option JValue :=
  match ty, pv with
  | .tInt32, .pInt i => some (.vInt i)
  | .tInt64, .pInt i => some (.vInt i)
  | .tUint32, .pInt i => some (.vInt i)
  | .tUint64, .pInt i => some (.vInt i)
  | .tBool, .pBool b => some (.vBool b)
  | .tString, .pStr s => some (.vStr s)
  | .tBytes, .pBytes bs => some (.vStr ⟨escapeBytes bs⟩)
  | .tEnum values, .pInt i =>
    if ue then some (EnumNumberToName values i) else some (.vInt i)
  | _, _ => none

/-- `getattr` default of an unset singular field, per type. -/
def defaultVal (ty : FieldType) : PValue :=
  match ty with
  | .tInt32 => .pInt 0
  | .tInt64 => .pInt 0
  | .tUint32 => .pInt 0
  | .tUint64 => .pInt 0
  | .tBool => .pBool false
  | .tString => .pStr ""
  | .tBytes => .pBytes []
  | .tEnum values => .pInt (((values.head?).map Prod.snd).getD 0)
  | .tMsg sub => .pMsg (freshMsg sub)

/-- The value a singular field contributes on the encode side: its stored
value when set, otherwise the `getattr` default. -/
def singleVal (ty : FieldType) (vals : List PValue) : PValue :=
  match vals with
  | [pv] => pv
  | _ => defaultVal ty

mutual

/-- The field loop of `pb2json`: `pb.ListFields()` (the set fields, in
declaration order) when `all_fields` is false; every descriptor field
when it is true. -/
def encFields (ue af : Bool) : Descr → Msg → Except PbErr JObj
  | [], _ => .ok []
  | (name, lab, ty) :: rest, m =>
    if (mlookup m name).isEmpty && !af then encFields ue af rest m
    else
      match encField1 ue af name lab ty (mlookup m name) with
      | .error e => .error e
      | .ok entry =>
        match encFields ue af rest m with
        | .ok js => .ok (entry :: js)
        | .error e => .error e
  termination_by desc _ => (sizeOf desc, 0, 0)

/-- One field's dict entry on the encode side: an unset optional field
renders as null in `all_fields` mode, a repeated field maps the
conversion over its elements, and a singular field converts its stored
value (the `getattr` default when unset, reachable only with
`all_fields`). -/
def encField1 (ue af : Bool) (name : String) (lab : Label) (ty : FieldType)
    (vals : List PValue) : Except PbErr (String × JValue) :=
  if af && (lab == Label.opt) && vals.isEmpty then .ok (name, .vNull)
  else
    match lab with
    | .rep =>
      match encList ue af ty vals with
      | .ok jl => .ok (name, .vArr jl)
      | .error e => .error e
    | _ =>
      match encValue ue af ty (singleVal ty vals) with
      | .ok jv => .ok (name, jv)
      | .error e => .error e
  termination_by (sizeOf ty, 2, 0)

/-- Per-value conversion on the encode side: nested messages recurse
through the converter, everything else goes through the coercion table. -/
def encValue (ue af : Bool) (ty : FieldType) (pv : PValue) : Except PbErr JValue :=
  match ty, pv with
  | .tMsg sub, .pMsg fm =>
    match encMsg ue af sub fm with
    | .ok js => .ok (.vObj js)
    | .error e => .error e
  | .tMsg _, _ => .error .convError
  | _, _ =>
    match scalarEncode ue ty pv with
    | some jv => .ok jv
    | none => .error .convError
  termination_by (sizeOf ty, 0, 0)

/-- A nested `pb2json` call: encode the fields, then run the nested
call's own required-field check. -/
def encMsg (ue af : Bool) (sub : Descr) (fm : Msg) : Except PbErr JObj :=
  match encFields ue af sub fm with
  | .error e => .error e
  | .ok js =>
    match findInit "" sub fm with
    | [] => .ok js
    | errs => .error (.requiredMissing errs)
  termination_by (sizeOf sub, 1, 0)

/-- Per-element conversion of a repeated field (`map(ftype, value)`),
preserving element order. -/
def encList (ue af : Bool) (ty : FieldType) : List PValue → Except PbErr (List JValue)
  | [] => .ok []
  | pv :: rest =>
    match encValue ue af ty pv with
    | .error e => .error e
    | .ok jv =>
      match encList ue af ty rest with
      | .ok l => .ok (jv :: l)
      | .error e => .error e
  termination_by vals => (sizeOf ty, 1, sizeOf vals)

end

/-- `pb2json(pb, use_enum_str_values, all_fields)`: build the dict, then
query initialization completeness and fail with Required-Field-Missing
naming the unset required fields. -/
def pb2json (ue af : Bool) (desc : Descr) (m : Msg) : Except PbErr JObj :=
  match encFields ue af desc m with
  | .error e => .error e
  | .ok js =>
    match findInit "" desc m with
    | [] => .ok js
    | errs => .error (.requiredMissing errs)

/-! Basic lemmas about the message model. -/

theorem mlookup_fresh (desc : Descr) (name : String) :
    mlookup (freshMsg desc) name = [] := by
  induction desc with
  | nil => rfl
  | cons f rest ih =>
    simp only [freshMsg, List.map, mlookup]
    split
    · rfl
    · exact ih

theorem mlookup_msetF_other (m : Msg) (k n : String) (vs : List PValue)
    (h : n ≠ k) : mlookup (msetF m k vs) n = mlookup m n := by
  induction m with
  | nil => rfl
  | cons e rest ih =>
    obtain ⟨k2, vs2⟩ := e
    simp only [msetF]
    by_cases hk : k = k2
    · subst hk
      rw [if_pos rfl]
      simp only [mlookup, if_neg h]
    · rw [if_neg hk]
      simp only [mlookup]
      split
      · rfl
      · exact ih

theorem msetF_head (name : String) (vs old : List PValue) (mc : Msg) :
    msetF ((name, old) :: mc) name vs = (name, vs) :: mc := by
  simp [msetF]

theorem msetF_cons_other (name k : String) (vs vals : List PValue) (mc : Msg)
    (h : k ≠ name) :
    msetF ((name, vals) :: mc) k vs = (name, vals) :: msetF mc k vs := by
  simp [msetF, h]

theorem mlookup_cons_other (name k : String) (vals : List PValue) (mc : Msg)
    (h : k ≠ name) : mlookup ((name, vals) :: mc) k = mlookup mc k := by
  simp [mlookup, h]

theorem jget_none_of_not_mem_keys (js : JObj) (name : String)
    (h : name ∉ js.map Prod.fst) : jget js name = none := by
  induction js with
  | nil => rfl
  | cons e rest ih =>
    obtain ⟨k, v⟩ := e
    simp only [List.map, List.mem_cons, not_or] at h
    simp only [jget, if_neg h.1]
    exact ih h.2

/-! Well-formedness of descriptors and messages. -/

mutual

/-- Descriptor well-formedness: field names are distinct at every level,
and enum value tables have distinct symbolic names. -/
def WFDesc : Descr → Prop
  | [] => True
  | (name, _, ty) :: rest => (∀ f ∈ rest, f.1 ≠ name) ∧ WFType ty ∧ WFDesc rest

/-- Per-type well-formedness (see `WFDesc`). -/
def WFType : FieldType → Prop
  | .tEnum values => (values.map Prod.fst).Nodup
  | .tMsg sub => WFDesc sub
  | _ => True

end

mutual

/-- A stored value conforms to its field type (bytes are byte-valued,
submessages conform recursively). -/
def GoodValue : FieldType → PValue → Prop
  | .tInt32, .pInt _ => True
  | .tInt64, .pInt _ => True
  | .tUint32, .pInt _ => True
  | .tUint64, .pInt _ => True
  | .tBool, .pBool _ => True
  | .tString, .pStr _ => True
  | .tBytes, .pBytes bs => ∀ n ∈ bs, n < 256
  | .tEnum _, .pInt _ => True
  | .tMsg sub, .pMsg fm => GoodMsg sub fm
  | _, _ => False

/-- Every element of a repeated field conforms. -/
def GoodList (ty : FieldType) : List PValue → Prop
  | [] => True
  | v :: vs => GoodValue ty v ∧ GoodList ty vs

/-- The message has exactly the descriptor's fields in order; every
singular field (required or optional) is set to one conforming value and
every repeated field holds conforming elements.  This is the "all
optional fields set and no unset required fields" hypothesis of the
round-trip claim, together with schema conformance. -/
def GoodMsg : Descr → Msg → Prop
  | [], m => m = []
  | (name, lab, ty) :: rest, m =>
    match m with
    | [] => False
    | (n2, vals) :: m2 =>
      n2 = name ∧
      (match lab with
       | .rep => GoodList ty vals
       | _ => match vals with
         | [v] => GoodValue ty v
         | _ => False) ∧
      GoodMsg rest m2

end

/-! Congruence lemmas: the engine reads the input dict and the message
only through lookups of the descriptor's field names. -/

theorem procFields_congr_js (ue : Bool) (desc : Descr) (js1 js2 : JObj)
    (h : ∀ f ∈ desc, jget js1 f.1 = jget js2 f.1) :
    ∀ m, procFields ue desc m js1 = procFields ue desc m js2 := by
  induction desc with
  | nil =>
    intro m
    conv_lhs => rw [procFields.eq_def]
    conv_rhs => rw [procFields.eq_def]
  | cons f rest ih =>
    intro m
    obtain ⟨name, lab, ty⟩ := f
    have hh : jget js1 name = jget js2 name := h (name, lab, ty) (by simp)
    have ht : ∀ g ∈ rest, jget js1 g.1 = jget js2 g.1 := fun g hg => h g (by simp [hg])
    conv_lhs => rw [procFields.eq_def]
    conv_rhs => rw [procFields.eq_def]
    dsimp only
    rw [hh]
    simp only [ih ht]

theorem encFields_congr_m (ue af : Bool) (desc : Descr) (m1 m2 : Msg)
    (h : ∀ f ∈ desc, mlookup m1 f.1 = mlookup m2 f.1) :
    encFields ue af desc m1 = encFields ue af desc m2 := by
  induction desc with
  | nil =>
    conv_lhs => rw [encFields.eq_def]
    conv_rhs => rw [encFields.eq_def]
  | cons f rest ih =>
    obtain ⟨name, lab, ty⟩ := f
    have hh : mlookup m1 name = mlookup m2 name := h (name, lab, ty) (by simp)
    have ht : ∀ g ∈ rest, mlookup m1 g.1 = mlookup m2 g.1 := fun g hg => h g (by simp [hg])
    conv_lhs => rw [encFields.eq_def]
    conv_rhs => rw [encFields.eq_def]
    dsimp only
    rw [hh]
    simp only [ih ht]

theorem findInit_congr_m (desc : Descr) (m1 m2 : Msg)
    (h : ∀ f ∈ desc, mlookup m1 f.1 = mlookup m2 f.1) :
    ∀ pre, findInit pre desc m1 = findInit pre desc m2 := by
  induction desc with
  | nil =>
    intro pre
    conv_lhs => rw [findInit.eq_def]
    conv_rhs => rw [findInit.eq_def]
  | cons f rest ih =>
    intro pre
    obtain ⟨name, lab, ty⟩ := f
    have hh : mlookup m1 name = mlookup m2 name := h (name, lab, ty) (by simp)
    have ht : ∀ g ∈ rest, mlookup m1 g.1 = mlookup m2 g.1 := fun g hg => h g (by simp [hg])
    conv_lhs => rw [findInit.eq_def]
    conv_rhs => rw [findInit.eq_def]
    dsimp only
    rw [hh]
    simp only [ih ht]

theorem procFields_cons_msg (ue : Bool) (rest : Descr) (js : JObj)
    (name : String) (vals : List PValue) (h : ∀ f ∈ rest, f.1 ≠ name) :
    ∀ mc, procFields ue rest ((name, vals) :: mc) js
      = ((name, vals) :: (procFields ue rest mc js).1,
         (procFields ue rest mc js).2) := by
  induction rest with
  | nil =>
    intro mc
    conv_lhs => rw [procFields.eq_def]
    conv_rhs => rw [procFields.eq_def]
  | cons f rest2 ih =>
    intro mc
    obtain ⟨n2, lab, ty⟩ := f
    have hn2 : n2 ≠ name := h (n2, lab, ty) (by simp)
    have ht : ∀ f ∈ rest2, f.1 ≠ name := fun f hf => h f (by simp [hf])
    conv_lhs => rw [procFields.eq_def]
    conv_rhs => rw [procFields.eq_def]
    dsimp only
    rw [mlookup_cons_other name n2 vals mc hn2]
    cases hj : jget js n2 with
    | none => exact ih ht mc
    | some jsv =>
      split
      all_goals try split
      all_goals try split
      all_goals try split
      all_goals
        first
          | rfl
          | simp [msetF_cons_other name n2 _ vals mc hn2, ih ht]

theorem procFields_preserves_missing (ue : Bool) (desc : Descr) (js : JObj)
    (name : String) (hjs : jget js name = none) :
    ∀ m, mlookup (procFields ue desc m js).1 name = mlookup m name := by
  induction desc with
  | nil =>
    intro m
    rw [procFields.eq_def]
  | cons f rest ih =>
    intro m
    obtain ⟨n2, lab, ty⟩ := f
    rw [procFields.eq_def]
    dsimp only
    by_cases he : n2 = name
    · subst he
      rw [hjs]
      exact ih m
    · have hset : ∀ (mm : Msg) (vs : List PValue),
          mlookup (msetF mm n2 vs) name = mlookup mm name :=
        fun mm vs => mlookup_msetF_other mm n2 name vs (fun hh => he hh.symm)
      cases hj : jget js n2 with
      | none => exact ih m
      | some jsv =>
        split
        all_goals try split
        all_goals try split
        all_goals try split
        all_goals first
          | rfl
          | simp [ih, hset]

theorem findInit_mem_req (desc : Descr) (name : String) (ty : FieldType)
    (hmem : (name, Label.req, ty) ∈ desc) :
    ∀ pre m, mlookup m name = [] → (pre ++ name) ∈ findInit pre desc m := by
  induction desc with
  | nil => simp at hmem
  | cons f rest ih =>
    intro pre m hm
    obtain ⟨n2, lab2, ty2⟩ := f
    rw [findInit.eq_def]
    dsimp only
    rcases List.mem_cons.mp hmem with heq | htail
    · simp only [Prod.mk.injEq] at heq
      obtain ⟨rfl, rfl, rfl⟩ := heq
      rw [hm]
      simp
    · have := ih htail pre m hm
      simp only [List.mem_append]
      exact Or.inr this

theorem json2pb_fst (ue : Bool) (desc : Descr) (m : Msg) (js : JObj) :
    (json2pb ue desc m js).1 = (procFields ue desc m js).1 := by
  unfold json2pb
  rcases h : procFields ue desc m js with ⟨m2, e⟩
  cases e
  · dsimp only
    cases findInit "" desc m2 <;> rfl
  · rfl

/-- C6: required-field enforcement, checked after all fields are
processed.  For any schema field `(name, required, ty)` whose key is
absent from the input dict: decoding into a fresh message never returns
successfully; when the field-processing loop itself raises no error, the
failure is exactly Required-Field-Missing and the error names the missing
field; and in general a successful `json2pb` return has no unset required
fields (its final initialization query came back empty). -/
theorem c6_required_field_enforcement (ue : Bool) (desc : Descr) (js : JObj)
    (name : String) (ty : FieldType)
    (hmem : (name, Label.req, ty) ∈ desc) (hjs : jget js name = none) :
    (json2pb ue desc (freshMsg desc) js).2 ≠ none ∧
    ((procFields ue desc (freshMsg desc) js).2 = none →
      ∃ errs, (json2pb ue desc (freshMsg desc) js).2
          = some (.requiredMissing errs) ∧ name ∈ errs) ∧
    (∀ m2 js2, (json2pb ue desc m2 js2).2 = none →
      findInit "" desc (json2pb ue desc m2 js2).1 = []) := by
  have hearly : mlookup (procFields ue desc (freshMsg desc) js).1 name = [] := by
    rw [procFields_preserves_missing ue desc js name hjs, mlookup_fresh]
  have hmemInit : ∀ mm : Msg, mlookup mm name = [] → name ∈ findInit "" desc mm := by
    intro mm h0
    have := findInit_mem_req desc name ty hmem "" mm h0
    rwa [str_empty_append] at this
  refine ⟨?_, ?_, ?_⟩
  · unfold json2pb
    rcases hp : procFields ue desc (freshMsg desc) js with ⟨m2, e⟩
    cases e with
    | none =>
      dsimp only
      have h2 : name ∈ findInit "" desc m2 := by
        apply hmemInit
        rw [hp] at hearly
        exact hearly
      cases hfi : findInit "" desc m2 with
      | nil => rw [hfi] at h2; simp at h2
      | cons a rest => simp
    | some e2 => simp
  · intro hpe
    unfold json2pb
    rcases hp : procFields ue desc (freshMsg desc) js with ⟨m2, e⟩
    rw [hp] at hpe
    dsimp only at hpe
    subst hpe
    dsimp only
    have h2 : name ∈ findInit "" desc m2 := by
      apply hmemInit
      rw [hp] at hearly
      exact hearly
    cases hfi : findInit "" desc m2 with
    | nil => rw [hfi] at h2; simp at h2
    | cons a rest =>
      refine ⟨a :: rest, rfl, ?_⟩
      rw [hfi] at h2
      exact h2
  · intro m2 js2 hnone
    unfold json2pb at hnone ⊢
    rcases hp : procFields ue desc m2 js2 with ⟨m3, e⟩
    rw [hp] at hnone
    cases e with
    | none =>
      dsimp only at hnone ⊢
      cases hfi : findInit "" desc m3 with
      | nil => simp [hfi]
      | cons a rest => rw [hfi] at hnone; simp at hnone
    | some e2 => simp at hnone

/-- Witness for C6 at a concrete one-field schema with the required key
absent from the input. -/
theorem c6_required_field_enforcement_witness :
    (json2pb true [("b", Label.req, FieldType.tInt32)]
        (freshMsg [("b", Label.req, FieldType.tInt32)]) []).2 ≠ none :=
  (c6_required_field_enforcement true [("b", Label.req, FieldType.tInt32)] []
    "b" FieldType.tInt32 (by simp) rfl).1

/-- C9: unknown input keys are silently ignored — `json2pb` reads only
keys whose name equals some descriptor field, so an extra entry whose key
matches no field leaves the entire result (message and error status)
unchanged. -/
theorem c9_unknown_keys_ignored (ue : Bool) (desc : Descr) (m : Msg) (js : JObj)
    (k : String) (v : JValue) (hk : k ∉ desc.map fun f => f.1) :
    json2pb ue desc m ((k, v) :: js) = json2pb ue desc m js := by
  have h : ∀ f ∈ desc, jget ((k, v) :: js) f.1 = jget js f.1 := by
    intro f hf
    have hne : f.1 ≠ k := fun e => hk (e ▸ List.mem_map_of_mem _ hf)
    simp [jget, hne]
  unfold json2pb
  rw [procFields_congr_js ue desc _ js h m]

/-- Witness for C9: an `HTMLSnippet` key (not a schema field) has no
effect. -/
theorem c9_unknown_keys_ignored_witness :
    json2pb true [("status", Label.opt, FieldType.tString)]
        (freshMsg [("status", Label.opt, FieldType.tString)])
        [("HTMLSnippet", .vStr "snippet")]
      = json2pb true [("status", Label.opt, FieldType.tString)]
          (freshMsg [("status", Label.opt, FieldType.tString)]) [] :=
  c9_unknown_keys_ignored true [("status", Label.opt, FieldType.tString)] _ []
    "HTMLSnippet" (.vStr "snippet") (by simp)

/-- C10: decode is not atomic on failure.  The message component
`json2pb` hands back is exactly the state the field-processing loop
reached — the required-field check runs after the loop and performs no
rollback.  Concretely, on a schema with optional `a` (present) and
required `b` (absent), the error is Required-Field-Missing for `b` while
the returned message keeps `a`'s decoded value. -/
theorem c10_decode_not_atomic :
    (∀ (ue : Bool) (desc : Descr) (m : Msg) (js : JObj),
      (json2pb ue desc m js).1 = (procFields ue desc m js).1) ∧
    json2pb true [("a", Label.opt, FieldType.tString), ("b", Label.req, FieldType.tInt32)]
        (freshMsg [("a", Label.opt, FieldType.tString), ("b", Label.req, FieldType.tInt32)])
        [("a", .vStr "kept")]
      = ([("a", [.pStr "kept"]), ("b", [])], some (.requiredMissing ["b"])) := by
  constructor
  · exact json2pb_fst
  · simp [json2pb, procFields.eq_def, findInit.eq_def, freshMsg, mlookup, msetF, jget,
      scalarDecode, pyUnicode]

/-! Round-trip machinery for the encode-then-decode claim. -/

theorem mlookup_head (k : String) (vs : List PValue) (m : Msg) :
    mlookup ((k, vs) :: m) k = vs := by
  simp [mlookup]

theorem lookupNumber_mem (values : List (String × Int)) (i : Int) (nm : String)
    (h : lookupNumber values i = some nm) : (nm, i) ∈ values := by
  induction values with
  | nil => simp [lookupNumber] at h
  | cons e rest ih =>
    obtain ⟨n0, v0⟩ := e
    simp only [lookupNumber] at h
    split at h
    · rename_i hv
      cases h
      subst hv
      simp
    · exact List.mem_cons_of_mem _ (ih h)

theorem lookupName_of_lookupNumber (values : List (String × Int)) (i : Int)
    (nm : String) (hnd : (values.map Prod.fst).Nodup)
    (h : lookupNumber values i = some nm) : lookupName values nm = some i := by
  induction values with
  | nil => simp [lookupNumber] at h
  | cons e rest ih =>
    obtain ⟨n0, v0⟩ := e
    simp only [List.map, List.nodup_cons] at hnd
    simp only [lookupNumber] at h
    simp only [lookupName]
    split at h
    · rename_i hv
      cases h
      rw [if_pos rfl, hv]
    · rename_i hv
      have hmem := lookupNumber_mem rest i nm h
      have hneq : nm ≠ n0 := by
        intro heq
        subst heq
        exact hnd.1 (List.mem_map_of_mem Prod.fst hmem)
      rw [if_neg hneq]
      exact ih hnd.2 h

theorem GoodList_forall (ty : FieldType) (vals : List PValue) :
    GoodList ty vals ↔ ∀ v ∈ vals, GoodValue ty v := by
  induction vals with
  | nil =>
    rw [GoodList]
    simp
  | cons v vs ih =>
    rw [GoodList]
    simp [ih]

/-- The decode direction of a single value round-trip: a nested message
decodes through `msgDecode` from a fresh submessage, everything else
through the scalar coercions. -/
def DecBack (ue : Bool) (ty : FieldType) (jv : JValue) (pv : PValue) : Prop :=
  match ty, pv with
  | .tMsg sub, .pMsg fm => msgDecode ue sub (freshMsg sub) jv = (fm, none)
  | _, _ => scalarDecode ue ty jv = some pv

theorem findInitRep_empty (base : String) (sub : Descr) (vals : List PValue)
    (h : ∀ v ∈ vals, ∀ fm, v = .pMsg fm → ∀ pre, findInit pre sub fm = []) :
    ∀ i, findInitRep base sub i vals = [] := by
  induction vals with
  | nil =>
    intro i
    rw [findInitRep.eq_def]
  | cons v vs ih =>
    intro i
    rw [findInitRep.eq_def]
    have ht : ∀ w ∈ vs, ∀ fm, w = .pMsg fm → ∀ pre, findInit pre sub fm = [] :=
      fun w hw => h w (by simp [hw])
    cases v with
    | pMsg fm =>
      dsimp only
      rw [h (.pMsg fm) (by simp) fm rfl, ih ht (i + 1)]
      rfl
    | pInt _ => exact ih ht (i + 1)
    | pBool _ => exact ih ht (i + 1)
    | pStr _ => exact ih ht (i + 1)
    | pBytes _ => exact ih ht (i + 1)

theorem scalar_roundtrip (ue af : Bool) (ty : FieldType) (pv : PValue)
    (hnm : ∀ sub, ty ≠ .tMsg sub) (hty : WFType ty) (hv : GoodValue ty pv) :
    ∃ jv, encValue ue af ty pv = .ok jv ∧ scalarDecode ue ty jv = some pv := by
  cases ty with
  | tMsg sub => exact absurd rfl (hnm sub)
  | tInt32 =>
    cases pv with
    | pInt i =>
      exact ⟨.vInt i, by rw [encValue.eq_def]; simp [scalarEncode],
        by simp [scalarDecode, pyInt]⟩
    | pBool b => rw [GoodValue.eq_def] at hv; exact hv.elim
    | pStr s => rw [GoodValue.eq_def] at hv; exact hv.elim
    | pBytes bs => rw [GoodValue.eq_def] at hv; exact hv.elim
    | pMsg fm => rw [GoodValue.eq_def] at hv; exact hv.elim
  | tInt64 =>
    cases pv with
    | pInt i =>
      exact ⟨.vInt i, by rw [encValue.eq_def]; simp [scalarEncode],
        by simp [scalarDecode, pyInt]⟩
    | pBool b => rw [GoodValue.eq_def] at hv; exact hv.elim
    | pStr s => rw [GoodValue.eq_def] at hv; exact hv.elim
    | pBytes bs => rw [GoodValue.eq_def] at hv; exact hv.elim
    | pMsg fm => rw [GoodValue.eq_def] at hv; exact hv.elim
  | tUint32 =>
    cases pv with
    | pInt i =>
      exact ⟨.vInt i, by rw [encValue.eq_def]; simp [scalarEncode],
        by simp [scalarDecode, pyInt]⟩
    | pBool b => rw [GoodValue.eq_def] at hv; exact hv.elim
    | pStr s => rw [GoodValue.eq_def] at hv; exact hv.elim
    | pBytes bs => rw [GoodValue.eq_def] at hv; exact hv.elim
    | pMsg fm => rw [GoodValue.eq_def] at hv; exact hv.elim
  | tUint64 =>
    cases pv with
    | pInt i =>
      exact ⟨.vInt i, by rw [encValue.eq_def]; simp [scalarEncode],
        by simp [scalarDecode, pyInt]⟩
    | pBool b => rw [GoodValue.eq_def] at hv; exact hv.elim
    | pStr s => rw [GoodValue.eq_def] at hv; exact hv.elim
    | pBytes bs => rw [GoodValue.eq_def] at hv; exact hv.elim
    | pMsg fm => rw [GoodValue.eq_def] at hv; exact hv.elim
  | tBool =>
    cases pv with
    | pBool b =>
      exact ⟨.vBool b, by rw [encValue.eq_def]; simp [scalarEncode],
        by simp [scalarDecode, pyBool]⟩
    | pInt i => rw [GoodValue.eq_def] at hv; exact hv.elim
    | pStr s => rw [GoodValue.eq_def] at hv; exact hv.elim
    | pBytes bs => rw [GoodValue.eq_def] at hv; exact hv.elim
    | pMsg fm => rw [GoodValue.eq_def] at hv; exact hv.elim
  | tString =>
    cases pv with
    | pStr s =>
      exact ⟨.vStr s, by rw [encValue.eq_def]; simp [scalarEncode],
        by simp [scalarDecode, pyUnicode]⟩
    | pInt i => rw [GoodValue.eq_def] at hv; exact hv.elim
    | pBool b => rw [GoodValue.eq_def] at hv; exact hv.elim
    | pBytes bs => rw [GoodValue.eq_def] at hv; exact hv.elim
    | pMsg fm => rw [GoodValue.eq_def] at hv; exact hv.elim
  | tBytes =>
    cases pv with
    | pBytes bs =>
      have hb : ∀ n ∈ bs, n < 256 := by
        rw [GoodValue.eq_def] at hv
        exact hv
      refine ⟨.vStr ⟨escapeBytes bs⟩, by rw [encValue.eq_def]; simp [scalarEncode], ?_⟩
      show (unescapeChars (String.data ⟨escapeBytes bs⟩)).map PValue.pBytes = some (.pBytes bs)
      rw [show String.data ⟨escapeBytes bs⟩ = escapeBytes bs from rfl,
        unescape_escape bs hb]
      rfl
    | pInt i => rw [GoodValue.eq_def] at hv; exact hv.elim
    | pBool b => rw [GoodValue.eq_def] at hv; exact hv.elim
    | pStr s => rw [GoodValue.eq_def] at hv; exact hv.elim
    | pMsg fm => rw [GoodValue.eq_def] at hv; exact hv.elim
  | tEnum values =>
    cases pv with
    | pInt i =>
      have hnd : (values.map Prod.fst).Nodup := by
        rw [WFType.eq_def] at hty
        exact hty
      cases hue : ue with
      | false =>
        exact ⟨.vInt i, by rw [encValue.eq_def]; simp [scalarEncode],
          by simp [scalarDecode, pyInt]⟩
      | true =>
        cases hln : lookupNumber values i with
        | some nm =>
          refine ⟨.vStr nm, ?_, ?_⟩
          · rw [encValue.eq_def]
            simp [scalarEncode, EnumNumberToName, hln]
          · simp [scalarDecode, EnumNameToNumber,
              lookupName_of_lookupNumber values i nm hnd hln]
        | none =>
          refine ⟨.vInt i, ?_, ?_⟩
          · rw [encValue.eq_def]
            simp [scalarEncode, EnumNumberToName, hln]
          · simp [scalarDecode, EnumNameToNumber]
    | pBool b => rw [GoodValue.eq_def] at hv; exact hv.elim
    | pStr s => rw [GoodValue.eq_def] at hv; exact hv.elim
    | pBytes bs => rw [GoodValue.eq_def] at hv; exact hv.elim
    | pMsg fm => rw [GoodValue.eq_def] at hv; exact hv.elim

theorem encList_roundtrip (ue af : Bool) (ty : FieldType) (vals : List PValue)
    (h : ∀ v ∈ vals, ∃ jv, encValue ue af ty v = .ok jv ∧ DecBack ue ty jv v) :
    ∃ jl, encList ue af ty vals = .ok jl ∧
      ∀ acc, repLoop ue ty acc jl = (acc ++ vals, none) := by
  induction vals with
  | nil =>
    refine ⟨[], by rw [encList.eq_def], ?_⟩
    intro acc
    rw [repLoop.eq_def]
    simp
  | cons v vs ih =>
    obtain ⟨jv, he, hd⟩ := h v (by simp)
    obtain ⟨jl, hel, hrl⟩ := ih fun w hw => h w (by simp [hw])
    refine ⟨jv :: jl, ?_, ?_⟩
    · rw [encList.eq_def]
      dsimp only
      rw [he, hel]
    · intro acc
      rw [repLoop.eq_def]
      dsimp only
      cases ty
      case tMsg sub =>
        cases v with
        | pMsg fm =>
          dsimp only [DecBack] at hd
          dsimp only
          rw [hd]
          dsimp only
          rw [hrl]
          simp
        | pInt i => dsimp only [DecBack, scalarDecode] at hd; exact Option.noConfusion hd
        | pBool b => dsimp only [DecBack, scalarDecode] at hd; exact Option.noConfusion hd
        | pStr s => dsimp only [DecBack, scalarDecode] at hd; exact Option.noConfusion hd
        | pBytes bs => dsimp only [DecBack, scalarDecode] at hd; exact Option.noConfusion hd
      all_goals
        dsimp only [DecBack] at hd
      all_goals
        dsimp only
      all_goals
        rw [hd]
      all_goals
        dsimp only
      all_goals
        rw [hrl]
      all_goals
        simp

theorem procFields_rep (ue : Bool) (name : String) (ty : FieldType) (rest : Descr)
    (m : Msg) (js : JObj) (elems : List JValue)
    (h : jget js name = some (.vArr elems)) :
    procFields ue ((name, Label.rep, ty) :: rest) m js =
      match repLoop ue ty (mlookup m name) elems with
      | (vs, some e) => (msetF m name vs, some e)
      | (vs, none) => procFields ue rest (msetF m name vs) js := by
  cases ty <;> (rw [procFields.eq_def]; dsimp only; rw [h])

theorem roundtrip_aux (ue af : Bool) :
    ∀ (n : Nat) (desc : Descr), sizeOf desc ≤ n → WFDesc desc →
      ∀ m, GoodMsg desc m →
        (∀ pre, findInit pre desc m = []) ∧
        ∃ js, encFields ue af desc m = .ok js ∧
          (∀ f, f ∈ js.map Prod.fst → f ∈ desc.map (fun g => g.1)) ∧
          procFields ue desc (freshMsg desc) js = (m, none) := by
  intro n
  induction n with
  | zero =>
    intro desc hsz
    exact absurd hsz (by cases desc <;> simp)
  | succ n ih =>
    intro desc hsz hwf m hgm
    cases desc with
    | nil =>
      rw [GoodMsg.eq_def] at hgm
      dsimp only at hgm
      subst hgm
      refine ⟨fun pre => by rw [findInit.eq_def], [], by rw [encFields.eq_def],
        by simp, ?_⟩
      rw [procFields.eq_def]
      rfl
    | cons f rest =>
      obtain ⟨name, lab, ty⟩ := f
      rw [WFDesc.eq_def] at hwf
      dsimp only at hwf
      obtain ⟨hne_rest, hty, hwf_rest⟩ := hwf
      rw [GoodMsg.eq_def] at hgm
      cases m with
      | nil => dsimp only at hgm
      | cons e m2 =>
        obtain ⟨n2, vals⟩ := e
        dsimp only at hgm
        obtain ⟨heq, hfield, hgm2⟩ := hgm
        have heq2 := heq.symm
        subst heq2
        simp only [List.cons.sizeOf_spec, Prod.mk.sizeOf_spec] at hsz
        have hsz_rest : sizeOf rest ≤ n := by omega
        have hsz_ty : sizeOf ty ≤ n := by omega
        obtain ⟨hfiR, jsR, heR, hkR, hpR⟩ := ih rest hsz_rest hwf_rest m2 hgm2
        have hml : ∀ g ∈ rest, mlookup ((name, vals) :: m2) g.1 = mlookup m2 g.1 :=
          fun g hg => mlookup_cons_other name g.1 vals m2 (hne_rest g hg)
        have hencR : encFields ue af rest ((name, vals) :: m2) = .ok jsR := by
          rw [encFields_congr_m ue af rest _ m2 hml]
          exact heR
        have hfiR2 : ∀ pre, findInit pre rest ((name, vals) :: m2) = [] := by
          intro pre
          rw [findInit_congr_m rest _ m2 hml pre]
          exact hfiR pre
        have hjsRnone : jget jsR name = none := by
          apply jget_none_of_not_mem_keys
          intro hmem
          obtain ⟨g, hg, hgeq⟩ := List.mem_map.mp (hkR name hmem)
          exact hne_rest g hg hgeq
        have hjcongr : ∀ (jv0 : JValue) (mm : Msg),
            procFields ue rest mm ((name, jv0) :: jsR) = procFields ue rest mm jsR := by
          intro jv0 mm
          apply procFields_congr_js
          intro g hg
          simp [jget, hne_rest g hg]
        have htail : ∀ jv0 : JValue,
            procFields ue rest ((name, vals) :: freshMsg rest) ((name, jv0) :: jsR)
              = ((name, vals) :: m2, none) := by
          intro jv0
          rw [hjcongr jv0, procFields_cons_msg ue rest jsR name vals hne_rest
            (freshMsg rest), hpR]
        have htail0 : procFields ue rest ((name, vals) :: freshMsg rest) jsR
            = ((name, vals) :: m2, none) := by
          rw [procFields_cons_msg ue rest jsR name vals hne_rest (freshMsg rest), hpR]
        have hfreshcons : freshMsg ((name, lab, ty) :: rest)
            = (name, []) :: freshMsg rest := rfl
        have hval : ∀ v, GoodValue ty v →
            ∃ jv, encValue ue af ty v = .ok jv ∧ DecBack ue ty jv v := by
          intro v hv0
          cases ty
          case tMsg sub =>
            cases v with
            | pMsg fm =>
              have hgm_sub : GoodMsg sub fm := by
                rw [GoodValue.eq_def] at hv0
                exact hv0
              have hwf_sub : WFDesc sub := by
                rw [WFType.eq_def] at hty
                exact hty
              have hsz_sub : sizeOf sub ≤ n := by
                simp only [FieldType.tMsg.sizeOf_spec] at hsz_ty
                omega
              obtain ⟨hfiS, jsS, heS, hkS, hpS⟩ := ih sub hsz_sub hwf_sub fm hgm_sub
              refine ⟨.vObj jsS, ?_, ?_⟩
              · rw [encValue.eq_def]
                dsimp only
                rw [encMsg.eq_def, heS]
                dsimp only
                rw [hfiS ""]
              · dsimp only [DecBack]
                rw [msgDecode.eq_def]
                dsimp only
                rw [hpS]
                dsimp only
                rw [hfiS ""]
            | pInt i => rw [GoodValue.eq_def] at hv0; exact hv0.elim
            | pBool b => rw [GoodValue.eq_def] at hv0; exact hv0.elim
            | pStr s => rw [GoodValue.eq_def] at hv0; exact hv0.elim
            | pBytes bs => rw [GoodValue.eq_def] at hv0; exact hv0.elim
          all_goals
            exact scalar_roundtrip ue af _ v (fun s hh => FieldType.noConfusion hh)
              hty hv0
        have hsubfiAll : ∀ sub2, ty = .tMsg sub2 →
            ∀ fm, GoodMsg sub2 fm → ∀ pre2, findInit pre2 sub2 fm = [] := by
          intro sub2 hts fm hgmf pre2
          subst hts
          have hwf_sub : WFDesc sub2 := by
            rw [WFType.eq_def] at hty
            exact hty
          have hsz_sub : sizeOf sub2 ≤ n := by
            simp only [FieldType.tMsg.sizeOf_spec] at hsz_ty
            omega
          exact (ih sub2 hsz_sub hwf_sub fm hgmf).1 pre2
        cases lab with
        | rep =>
          dsimp only at hfield
          have helem : ∀ v ∈ vals, ∃ jv, encValue ue af ty v = .ok jv ∧ DecBack ue ty jv v :=
            fun v hv0 => hval v ((GoodList_forall ty vals).mp hfield v hv0)
          obtain ⟨jl, hjl, hrep⟩ := encList_roundtrip ue af ty vals helem
          have hfi_all : ∀ pre,
              findInit pre ((name, Label.rep, ty) :: rest) ((name, vals) :: m2) = [] := by
            intro pre
            rw [findInit.eq_def]
            dsimp only
            rw [mlookup_head, hfiR2 pre]
            have hif : (Label.rep == Label.req && vals.isEmpty) = false := rfl
            rw [hif]
            cases ty
            case tMsg sub =>
              dsimp only
              have hElems : ∀ v ∈ vals, ∀ fm, v = .pMsg fm →
                  ∀ pre2, findInit pre2 sub fm = [] := by
                intro v hv0 fm hfm pre2
                subst hfm
                have hgv := (GoodList_forall _ vals).mp hfield _ hv0
                rw [GoodValue.eq_def] at hgv
                exact hsubfiAll sub rfl fm hgv pre2
              rw [findInitRep_empty (pre ++ name) sub vals hElems 0]
              rfl
            all_goals rfl
          refine ⟨hfi_all, ?_⟩
          by_cases hskip : (vals.isEmpty && !af) = true
          · have hvnil : vals = [] := by
              rcases Bool.and_eq_true_iff.mp hskip with ⟨h1, _⟩
              exact List.isEmpty_iff.mp h1
            refine ⟨jsR, ?_, ?_, ?_⟩
            · rw [encFields.eq_def]
              dsimp only
              rw [mlookup_head, hskip, if_pos rfl]
              exact hencR
            · intro f hf
              simp only [List.map, List.mem_cons]
              exact Or.inr (hkR f hf)
            · rw [procFields.eq_def, hfreshcons]
              dsimp only
              rw [hjsRnone]
              subst hvnil
              exact htail0
          · refine ⟨(name, .vArr jl) :: jsR, ?_, ?_, ?_⟩
            · have hskip2 : (vals.isEmpty && !af) = false := Bool.eq_false_iff.mpr hskip
              rw [encFields.eq_def]
              dsimp only
              rw [mlookup_head, hskip2, if_neg Bool.false_ne_true]
              rw [encField1.eq_def]
              have hif2 : (af && (Label.rep == Label.opt) && vals.isEmpty) = false := by
                simp [show (Label.rep == Label.opt) = false from rfl]
              rw [hif2, if_neg Bool.false_ne_true]
              dsimp only
              rw [hjl]
              dsimp only
              rw [hencR]
            · intro f hf
              simp only [List.map, List.mem_cons] at hf
              rcases hf with rfl | hf
              · simp
              · simp only [List.map, List.mem_cons]
                exact Or.inr (hkR f hf)
            · rw [hfreshcons]
              have hjg : jget ((name, JValue.vArr jl) :: jsR) name = some (.vArr jl) := by
                simp [jget]
              rw [procFields_rep ue name ty rest _ _ jl hjg]
              rw [mlookup_head, hrep []]
              dsimp only
              rw [msetF_head]
              exact htail (.vArr jl)
        | req =>
          dsimp only at hfield
          rcases hvals : vals with _ | ⟨v, vtail⟩
          · rw [hvals] at hfield
            exact hfield.elim
          · rcases vtail with _ | ⟨w, wtail⟩
            swap
            · rw [hvals] at hfield
              exact hfield.elim
            subst hvals
            have hgv : GoodValue ty v := hfield
            obtain ⟨jv, he, hd⟩ := hval v hgv
            have hfi_all : ∀ pre,
                findInit pre ((name, Label.req, ty) :: rest) ((name, [v]) :: m2) = [] := by
              intro pre
              rw [findInit.eq_def]
              dsimp only
              rw [mlookup_head, hfiR2 pre]
              have hif : (Label.req == Label.req && ([v] : List PValue).isEmpty) = false := rfl
              rw [hif]
              cases ty
              case tMsg sub =>
                dsimp only
                cases v with
                | pMsg fm =>
                  dsimp only
                  rw [GoodValue.eq_def] at hgv
                  rw [hsubfiAll sub rfl fm hgv (pre ++ name ++ ".")]
                  rfl
                | pInt i => rw [GoodValue.eq_def] at hgv; exact hgv.elim
                | pBool b => rw [GoodValue.eq_def] at hgv; exact hgv.elim
                | pStr s => rw [GoodValue.eq_def] at hgv; exact hgv.elim
                | pBytes bs => rw [GoodValue.eq_def] at hgv; exact hgv.elim
              all_goals rfl
            refine ⟨hfi_all, (name, jv) :: jsR, ?_, ?_, ?_⟩
            · rw [encFields.eq_def]
              dsimp only
              rw [mlookup_head]
              have hif0 : (([v] : List PValue).isEmpty && !af) = false := rfl
              rw [hif0, if_neg Bool.false_ne_true]
              rw [encField1.eq_def]
              have hif2 : (af && (Label.req == Label.opt) && ([v] : List PValue).isEmpty) = false := by
                simp [show (Label.req == Label.opt) = false from rfl]
              rw [hif2, if_neg Bool.false_ne_true]
              dsimp only [singleVal]
              rw [he]
              dsimp only
              rw [hencR]
            · intro f hf
              simp only [List.map, List.mem_cons] at hf
              rcases hf with rfl | hf
              · simp
              · simp only [List.map, List.mem_cons]
                exact Or.inr (hkR f hf)
            · rw [procFields.eq_def, hfreshcons]
              dsimp only
              have hjg : jget ((name, jv) :: jsR) name = some jv := by
                simp [jget]
              rw [hjg]
              dsimp only
              cases ty
              case tMsg sub =>
                cases v with
                | pMsg fm =>
                  dsimp only [DecBack] at hd
                  dsimp only
                  rw [mlookup_head]
                  dsimp only
                  rw [hd]
                  dsimp only
                  rw [msetF_head]
                  exact htail jv
                | pInt i => rw [GoodValue.eq_def] at hgv; exact hgv.elim
                | pBool b => rw [GoodValue.eq_def] at hgv; exact hgv.elim
                | pStr s => rw [GoodValue.eq_def] at hgv; exact hgv.elim
                | pBytes bs => rw [GoodValue.eq_def] at hgv; exact hgv.elim
              all_goals
                dsimp only [DecBack] at hd
              all_goals
                dsimp only
              all_goals
                rw [hd]
              all_goals
                dsimp only
              all_goals
                rw [msetF_head]
              all_goals
                exact htail jv
        | opt =>
          dsimp only at hfield
          rcases hvals : vals with _ | ⟨v, vtail⟩
          · rw [hvals] at hfield
            exact hfield.elim
          · rcases vtail with _ | ⟨w, wtail⟩
            swap
            · rw [hvals] at hfield
              exact hfield.elim
            subst hvals
            have hgv : GoodValue ty v := hfield
            obtain ⟨jv, he, hd⟩ := hval v hgv
            have hfi_all : ∀ pre,
                findInit pre ((name, Label.opt, ty) :: rest) ((name, [v]) :: m2) = [] := by
              intro pre
              rw [findInit.eq_def]
              dsimp only
              rw [mlookup_head, hfiR2 pre]
              have hif : (Label.opt == Label.req && ([v] : List PValue).isEmpty) = false := rfl
              rw [hif]
              cases ty
              case tMsg sub =>
                dsimp only
                cases v with
                | pMsg fm =>
                  dsimp only
                  rw [GoodValue.eq_def] at hgv
                  rw [hsubfiAll sub rfl fm hgv (pre ++ name ++ ".")]
                  rfl
                | pInt i => rw [GoodValue.eq_def] at hgv; exact hgv.elim
                | pBool b => rw [GoodValue.eq_def] at hgv; exact hgv.elim
                | pStr s => rw [GoodValue.eq_def] at hgv; exact hgv.elim
                | pBytes bs => rw [GoodValue.eq_def] at hgv; exact hgv.elim
              all_goals rfl
            refine ⟨hfi_all, (name, jv) :: jsR, ?_, ?_, ?_⟩
            · rw [encFields.eq_def]
              dsimp only
              rw [mlookup_head]
              have hif0 : (([v] : List PValue).isEmpty && !af) = false := rfl
              rw [hif0, if_neg Bool.false_ne_true]
              rw [encField1.eq_def]
              have hif2 : (af && (Label.opt == Label.opt) && ([v] : List PValue).isEmpty) = false := by
                simp
              rw [hif2, if_neg Bool.false_ne_true]
              dsimp only [singleVal]
              rw [he]
              dsimp only
              rw [hencR]
            · intro f hf
              simp only [List.map, List.mem_cons] at hf
              rcases hf with rfl | hf
              · simp
              · simp only [List.map, List.mem_cons]
                exact Or.inr (hkR f hf)
            · rw [procFields.eq_def, hfreshcons]
              dsimp only
              have hjg : jget ((name, jv) :: jsR) name = some jv := by
                simp [jget]
              rw [hjg]
              dsimp only
              cases ty
              case tMsg sub =>
                cases v with
                | pMsg fm =>
                  dsimp only [DecBack] at hd
                  dsimp only
                  rw [mlookup_head]
                  dsimp only
                  rw [hd]
                  dsimp only
                  rw [msetF_head]
                  exact htail jv
                | pInt i => rw [GoodValue.eq_def] at hgv; exact hgv.elim
                | pBool b => rw [GoodValue.eq_def] at hgv; exact hgv.elim
                | pStr s => rw [GoodValue.eq_def] at hgv; exact hgv.elim
                | pBytes bs => rw [GoodValue.eq_def] at hgv; exact hgv.elim
              all_goals
                dsimp only [DecBack] at hd
              all_goals
                dsimp only
              all_goals
                rw [hd]
              all_goals
                dsimp only
              all_goals
                rw [msetF_head]
              all_goals
                exact htail jv

/-- C7: Encode-then-decode is the identity on schema-conforming messages
with every field set: for any well-formed descriptor and any message
conforming to it (all optional fields set, no unset required fields,
repeated fields element-wise conforming), `pb2json` succeeds and feeding
its output to `json2pb` on a fresh message of the same type returns the
original message with no error, in either enum-symbol mode and either
`all_fields` mode.  Every coercion-table entry in the model is exact
(the source's floating-point types, the known tolerance exception, fall
outside the model, as noted at the top of the protobuf section). -/
theorem c7_encode_decode_roundtrip (ue af : Bool) (desc : Descr) (m : Msg)
    (hwf : WFDesc desc) (hgm : GoodMsg desc m) :
    ∃ js, pb2json ue af desc m = .ok js ∧
      json2pb ue desc (freshMsg desc) js = (m, none) := by
  obtain ⟨hfi, js, he, _, hp⟩ :=
    roundtrip_aux ue af (sizeOf desc) desc (le_refl _) hwf m hgm
  refine ⟨js, ?_, ?_⟩
  · rw [pb2json, he, hfi ""]
  · rw [json2pb, hp]
    dsimp only
    rw [hfi ""]

/-- A concrete schema exercising every modelled field shape: a required
string, an optional int32, a repeated int64, a required submessage, an
optional enum and optional bytes. -/
def d7 : Descr :=
  [("name", Label.req, .tString),
   ("count", Label.opt, .tInt32),
   ("tag", Label.rep, .tInt64),
   ("inner", Label.req, .tMsg [("flag", Label.opt, .tBool)]),
   ("kind", Label.opt, .tEnum [("A", 0), ("B", 5)]),
   ("blob", Label.opt, .tBytes)]

/-- A fully populated message conforming to `d7` (the enum value 5 has a
symbol, the bytes include an escape-needing byte). -/
def m7 : Msg :=
  [("name", [.pStr "x"]),
   ("count", [.pInt 3]),
   ("tag", [.pInt 1, .pInt 2]),
   ("inner", [.pMsg [("flag", [.pBool true])]]),
   ("kind", [.pInt 5]),
   ("blob", [.pBytes [0, 92, 255]])]

theorem c7_encode_decode_roundtrip_witness :
    ∃ js, pb2json true true d7 m7 = .ok js ∧
      json2pb true d7 (freshMsg d7) js = (m7, none) :=
  c7_encode_decode_roundtrip true true d7 m7
    (by simp [d7, WFDesc.eq_def, WFType.eq_def])
    (by simp [d7, m7, GoodMsg.eq_def, GoodValue.eq_def, GoodList.eq_def])

end SSR
